import Mathlib

/-!
Verification of the FiberRoot scheduling core (ReactFiberRoot.js).

The embedding models expiration times as natural numbers with `Done = 0`
(`Done` is the minimum/identity value; lower numeric value = more urgent;
a valid non-`Done` time is strictly greater than `Done`).  Object identity
for the cyclic root/fiber construction is modelled with an explicit heap of
indices.  Modules that are required by the source file but are not present
in the repository snapshot (ReactFiberUpdateQueue, ReactFiber, the commit /
callback machinery and the renderer) are modelled from the specification;
each such definition carries a doc comment saying so.
-/

namespace ReactFiberRoot

/-- Expiration times are coarse priority buckets; we model them as `Nat`. -/
abbrev ExpirationTime := Nat

/-- `Done` is the minimum/identity value meaning "no pending work". -/
def Done : ExpirationTime := 0

/-- Modelled from the spec: `UpdateQueue<T>` (module ReactFiberUpdateQueue is
not in the snapshot).  An ordered sequence of `(expirationTime, payload)`
entries, kept sorted by time with ties in insertion order, plus a cached
minimum (`Done` when empty) so that `minTime` is O(1). -/
structure UpdateQueue (T : Type) where
  entries : List (ExpirationTime × T)
  cachedMin : ExpirationTime
deriving DecidableEq

/-- Modelled from the spec: the empty queue; its cached minimum is `Done`. -/
def emptyUpdateQueue {T : Type} : UpdateQueue T := ⟨[], Done⟩

/-- Insert an entry before the first strictly later entry, so that entries at
the same time keep insertion order. -/
def insertSorted {T : Type} (time : ExpirationTime) (payload : T) :
    List (ExpirationTime × T) → List (ExpirationTime × T)
  | [] => [(time, payload)]
  | e :: rest =>
    if e.1 ≤ time then e :: insertSorted time payload rest
    else (time, payload) :: e :: rest

/-- Modelled from the spec: `enqueue(queue, time, payload)` inserts maintaining
queue order and updates the cached minimum incrementally (`Done` acts as the
identity of the minimum). -/
def enqueue {T : Type} (q : UpdateQueue T) (time : ExpirationTime) (payload : T) :
    UpdateQueue T :=
  { entries := insertSorted time payload q.entries
    cachedMin := if q.cachedMin = Done then time else min q.cachedMin time }

/-- Modelled from the spec: `getUpdateQueueExpirationTime` / `minTime` returns
the cached minimum pending expiration time, `Done` for an empty queue. -/
def getUpdateQueueExpirationTime {T : Type} (q : UpdateQueue T) : ExpirationTime :=
  q.cachedMin

/-- Modelled from the spec: the same operation on a possibly absent queue;
an absent queue has no pending work, so the result is `Done`. -/
def getUpdateQueueExpirationTimeOpt {T : Type} :
    Option (UpdateQueue T) → ExpirationTime
  | none => Done
  | some q => getUpdateQueueExpirationTime q

/-- The time of the first entry of a sorted entry list, `Done` when empty. -/
def headTime {T : Type} : List (ExpirationTime × T) → ExpirationTime
  | [] => Done
  | e :: _ => e.1

/-- Modelled from the spec: `drainUpTo(queue, time)` removes and returns, in
time order then insertion order for ties, all entries at or before `time`;
the cached minimum is recomputed from the head of the remainder. -/
def drainUpTo {T : Type} (q : UpdateQueue T) (time : ExpirationTime) :
    List (ExpirationTime × T) × UpdateQueue T :=
  let fired := q.entries.takeWhile (fun e => decide (e.1 ≤ time))
  let rest := q.entries.dropWhile (fun e => decide (e.1 ≤ time))
  (fired, { entries := rest, cachedMin := headTime rest })

/-- Modelled from the spec: of module ReactFiber only the host-root fiber's
`stateNode` back-reference (a root id in our heap) is relevant here. -/
structure Fiber where
  stateNode : Option Nat
deriving DecidableEq

/-- Modelled from the spec: `createHostRootFiber` allocates a fresh fiber with
no `stateNode` yet. -/
def createHostRootFiber : Fiber := ⟨none⟩

/-- The FiberRoot record, translated field by field from the source type.
`current` and `nextScheduledRoot` are heap indices (JS object references);
`completionCallbacks` carries a callback identifier as payload so that
invocations can be counted. -/
structure FiberRoot (Container Ctx : Type) where
  containerInfo : Container
  current : Nat
  isScheduled : Bool
  completedAt : ExpirationTime
  blockers : Option (UpdateQueue Unit)
  completionCallbacks : Option (UpdateQueue Nat)
  forceExpire : Option ExpirationTime
  nextScheduledRoot : Option Nat
  context : Option Ctx
  pendingContext : Option Ctx
deriving DecidableEq

/-- An explicit heap of fibers and roots; JS object references become list
indices, so the cyclic root/fiber construction is observable. -/
structure Heap (Container Ctx : Type) where
  fibers : List Fiber
  roots : List (FiberRoot Container Ctx)

/-- `isRootBlocked(root, expirationTime)` from the source: false when
`blockers` is null, otherwise the queue's minimum must be distinct from
`Done` and at or before `expirationTime`. -/
def isRootBlocked {C X : Type} (root : FiberRoot C X)
    (expirationTime : ExpirationTime) : Bool :=
  match root.blockers with
  | none => false
  | some blockers =>
    let blockedAt := getUpdateQueueExpirationTime blockers
    (!decide (blockedAt = Done)) && decide (blockedAt ≤ expirationTime)

/-- The same function embedded with explicit state passing: every read of the
root threads the (possibly updated) root through, so that the frame condition
"`isRootBlocked` mutates nothing" is a provable statement rather than a
modelling assumption. -/
def getUpdateQueueExpirationTimeSt {T : Type} (q : UpdateQueue T) :
    ExpirationTime × UpdateQueue T :=
  (q.cachedMin, q)

/-- State-passing embedding of `isRootBlocked`; returns the boolean result
together with the root as left by the call. -/
def isRootBlockedSt {C X : Type} (root : FiberRoot C X)
    (expirationTime : ExpirationTime) : Bool × FiberRoot C X :=
  match root.blockers with
  | none => (false, root)
  | some blockers =>
    let (blockedAt, blockers2) := getUpdateQueueExpirationTimeSt blockers
    ((!decide (blockedAt = Done)) && decide (blockedAt ≤ expirationTime),
     { root with blockers := some blockers2 })

/-- `createFiberRoot(containerInfo)` from the source: allocates the host root
fiber and the root record, then installs the cyclic back-reference
`uninitializedFiber.stateNode = root`.  Returns the extended heap and the
index of the new root. -/
def createFiberRoot {C X : Type} (h : Heap C X) (containerInfo : C) :
    Heap C X × Nat :=
  let uninitializedFiber := createHostRootFiber
  let fid := h.fibers.length
  let rid := h.roots.length
  let root : FiberRoot C X :=
    { current := fid
      containerInfo := containerInfo
      isScheduled := false
      completedAt := Done
      blockers := none
      completionCallbacks := none
      forceExpire := none
      nextScheduledRoot := none
      context := none
      pendingContext := none }
  let fiber := { uninitializedFiber with stateNode := some rid }
  ({ fibers := h.fibers ++ [fiber], roots := h.roots ++ [root] }, rid)

/-- Error taxonomy relevant to commits (spec §7). -/
inductive CommitError where
  | BlockedCommit
deriving DecidableEq

/-- Modelled from the spec: `commit(root, time)` (the commit routine lives in
the scheduler module, absent from the snapshot).  Fails with `BlockedCommit`
when `isRootBlocked(root, time)` holds, leaving the root untouched;
otherwise swaps `current` to the newly built tree, applies `pendingContext`
to `context`, advances `completedAt = max(completedAt, time)` and drains and
returns all `completionCallbacks` entries at or before `time`. -/
def commit {C X : Type} (root : FiberRoot C X) (newTree : Nat)
    (time : ExpirationTime) :
    FiberRoot C X × List (ExpirationTime × Nat) × Option CommitError :=
  if isRootBlocked root time then
    (root, [], some CommitError.BlockedCommit)
  else
    match root.completionCallbacks with
    | none =>
      ({ root with
          current := newTree
          completedAt := max root.completedAt time
          context := match root.pendingContext with
                     | some c => some c
                     | none => root.context
          pendingContext := none
          completionCallbacks := none },
       [], none)
    | some q =>
      ({ root with
          current := newTree
          completedAt := max root.completedAt time
          context := match root.pendingContext with
                     | some c => some c
                     | none => root.context
          pendingContext := none
          completionCallbacks := some (drainUpTo q time).2 },
       (drainUpTo q time).1, none)

/-- A sequence of commit attempts, each given as `(newTree, time)`; a blocked
attempt leaves the root unchanged. -/
def commitMany {C X : Type} (root : FiberRoot C X) :
    List (Nat × ExpirationTime) → FiberRoot C X
  | [] => root
  | (nt, t) :: rest => commitMany (commit root nt t).1 rest

/-- Modelled from the spec: `registerCompletionCallback(root, time, callback)`
appends the callback (identified by `cbId`) to `completionCallbacks`,
creating the queue when absent. -/
def registerCompletionCallback {C X : Type} (root : FiberRoot C X)
    (time : ExpirationTime) (cbId : Nat) : FiberRoot C X :=
  let q := match root.completionCallbacks with
           | none => emptyUpdateQueue
           | some q => q
  { root with completionCallbacks := some (enqueue q time cbId) }

/-- Modelled from the spec: `markBlocked(root, time)` records `time` in the
`blockers` queue, creating it when absent. -/
def markBlocked {C X : Type} (root : FiberRoot C X) (time : ExpirationTime) :
    FiberRoot C X :=
  let q := match root.blockers with
           | none => emptyUpdateQueue
           | some q => q
  { root with blockers := some (enqueue q time ()) }

/-- Modelled from the spec: `clearBlock(root, time)` discharges blocking
entries at or before `time` from `blockers`. -/
def clearBlock {C X : Type} (root : FiberRoot C X) (time : ExpirationTime) :
    FiberRoot C X :=
  match root.blockers with
  | none => root
  | some q => { root with blockers := some (drainUpTo q time).2 }

/-- One root together with the callback-id supply and the log of callback
invocations.  Each fired entry records
`(callback id, registered time, completedAt at the moment of firing)`. -/
structure SchedState (C X : Type) where
  root : FiberRoot C X
  nextCallbackId : Nat
  fired : List (Nat × ExpirationTime × ExpirationTime)

/-- The operations a caller can perform on a root over its lifetime. -/
inductive RootOp where
  | register (time : ExpirationTime)
  | commitOp (newTree : Nat) (time : ExpirationTime)
  | markBlockedOp (time : ExpirationTime)
  | clearBlockOp (time : ExpirationTime)

/-- Apply one operation to the scheduling state, logging every callback
invocation performed by a successful commit. -/
def applyRootOp {C X : Type} (s : SchedState C X) : RootOp → SchedState C X
  | .register t =>
    { s with
        root := registerCompletionCallback s.root t s.nextCallbackId
        nextCallbackId := s.nextCallbackId + 1 }
  | .commitOp nt t =>
    let res := commit s.root nt t
    { s with
        root := res.1
        fired := s.fired ++ res.2.1.map (fun e => (e.2, e.1, res.1.completedAt)) }
  | .markBlockedOp t => { s with root := markBlocked s.root t }
  | .clearBlockOp t => { s with root := clearBlock s.root t }

/-- Run a whole sequence of root operations. -/
def runRootOps {C X : Type} (s : SchedState C X) (ops : List RootOp) :
    SchedState C X :=
  ops.foldl applyRootOp s

/-- A freshly mounted root (the record built by `createFiberRoot`) with the
callback-id supply at zero and an empty invocation log. -/
def initSchedState {C X : Type} (containerInfo : C) (fid : Nat) :
    SchedState C X :=
  { root :=
      { current := fid
        containerInfo := containerInfo
        isScheduled := false
        completedAt := Done
        blockers := none
        completionCallbacks := none
        forceExpire := none
        nextScheduledRoot := none
        context := none
        pendingContext := none }
    nextCallbackId := 0
    fired := [] }

/-- The callback ids currently present in the root's completion queue. -/
def cbIds {C X : Type} (root : FiberRoot C X) : List Nat :=
  match root.completionCallbacks with
  | none => []
  | some q => q.entries.map (·.2)

/-- The operations producers and the scheduler perform on an UpdateQueue. -/
inductive QueueOp (T : Type) where
  | enq (time : ExpirationTime) (payload : T)
  | drain (time : ExpirationTime)

/-- Apply one queue operation (a drain discards the drained entries). -/
def applyQueueOp {T : Type} (q : UpdateQueue T) : QueueOp T → UpdateQueue T
  | .enq t p => enqueue q t p
  | .drain t => (drainUpTo q t).2

/-- Apply a sequence of queue operations to a queue. -/
def applyQueueOps {T : Type} (q : UpdateQueue T) (ops : List (QueueOp T)) :
    UpdateQueue T :=
  ops.foldl applyQueueOp q

/-- A queue operation is valid when it only enqueues valid (non-`Done`)
expiration times (spec §3: a valid time is strictly more urgent than
`Done`). -/
def validQueueOp {T : Type} : QueueOp T → Bool
  | .enq t _ => !decide (t = Done)
  | .drain _ => true

/-- Modelled from the spec: a tree of declarative units of work for the
suspension-equivalence property (§8).  A leaf carries its final text and the
time at which its asynchronous dependency resolves; a fallback boundary
carries placeholder content. -/
inductive WorkTree where
  | leaf (text : String) (resolveAt : ExpirationTime)
  | seq (l r : WorkTree)
  | boundary (fallback : String) (child : WorkTree)

/-- Modelled from the spec (§9): one render pass over the tree at time `now`.
The result is the tagged variant `Complete(output)` (`some`) or
`Suspended` (`none`): with suspension enabled a leaf whose dependency has
not yet resolved suspends, a suspended subtree suspends its sequence, and
the nearest fallback boundary converts a suspended child into its
placeholder output. -/
def renderResult (suspend : Bool) (now : ExpirationTime) :
    WorkTree → Option (List String)
  | .leaf text resolveAt =>
    if suspend && decide (now < resolveAt) then none else some [text]
  | .seq l r =>
    match renderResult suspend now l, renderResult suspend now r with
    | some a, some b => some (a ++ b)
    | _, _ => none
  | .boundary fallback child =>
    match renderResult suspend now child with
    | some out => some out
    | none => some [fallback]

/-- The time at which the last asynchronous dependency of the tree
resolves. -/
def maxResolve : WorkTree → ExpirationTime
  | .leaf _ r => r
  | .seq l r => max (maxResolve l) (maxResolve r)
  | .boundary _ c => maxResolve c

/-- A continuation frame of the time-sliced render machine. -/
inductive Frame where
  | seqL (r : WorkTree)
  | seqR (leftOut : List String)
  | bnd (fallback : String)

/-- The machine is either evaluating a subtree or returning a result. -/
inductive Control where
  | ev (t : WorkTree)
  | ret (v : Option (List String))

/-- Modelled from the spec (§4.5): the state of the incremental renderer —
one unit of work in flight plus an explicit stack of continuation frames,
so a pass can be interrupted after any unit and resumed later. -/
structure Machine where
  control : Control
  stack : List Frame

/-- One bounded unit of work of the incremental renderer. -/
def step (suspend : Bool) (now : ExpirationTime) : Machine → Machine
  | ⟨.ev (.leaf text resolveAt), k⟩ =>
    ⟨.ret (if suspend && decide (now < resolveAt) then none else some [text]), k⟩
  | ⟨.ev (.seq l r), k⟩ => ⟨.ev l, .seqL r :: k⟩
  | ⟨.ev (.boundary fb c), k⟩ => ⟨.ev c, .bnd fb :: k⟩
  | ⟨.ret none, .seqL _ :: k⟩ => ⟨.ret none, k⟩
  | ⟨.ret (some a), .seqL r :: k⟩ => ⟨.ev r, .seqR a :: k⟩
  | ⟨.ret v, .seqR a :: k⟩ => ⟨.ret (v.map (fun b => a ++ b)), k⟩
  | ⟨.ret v, .bnd fb :: k⟩ => ⟨.ret (some (v.getD [fb])), k⟩
  | ⟨.ret v, []⟩ => ⟨.ret v, []⟩

/-- Run `n` units of work. -/
def stepIter (suspend : Bool) (now : ExpirationTime) : Nat → Machine → Machine
  | 0, m => m
  | n + 1, m => stepIter suspend now n (step suspend now m)

/-- Run the machine in time slices: each slice performs a budget of units of
work and then yields back to the host. -/
def runSlices (suspend : Bool) (now : ExpirationTime) (slices : List Nat)
    (m : Machine) : Machine :=
  slices.foldl (fun m n => stepIter suspend now n m) m

/-- The machine that starts a render pass on `t`. -/
def initMachine (t : WorkTree) : Machine := ⟨.ev t, []⟩

/-- Well-formedness of an UpdateQueue: entries sorted by time, all entry
times valid (non-`Done`), and the cached minimum agreeing with the head. -/
def queueWF {T : Type} (q : UpdateQueue T) : Prop :=
  List.Pairwise (fun a b => a.1 ≤ b.1) q.entries ∧
  (∀ e ∈ q.entries, e.1 ≠ Done) ∧
  q.cachedMin = headTime q.entries

/-- The invariant tying the callback queue, the id supply and the invocation
log together: logged ids are distinct, queued ids are distinct, no logged id
is still queued, all ids come from the supply, every logged invocation
happened at or after its registered time, and `completedAt` never moves
below the value it had at any logged invocation. -/
def schedInv {C X : Type} (s : SchedState C X) : Prop :=
  (s.fired.map (·.1)).Nodup ∧
  (cbIds s.root).Nodup ∧
  (∀ i ∈ s.fired.map (·.1), i ∉ cbIds s.root) ∧
  (∀ i ∈ s.fired.map (·.1), i < s.nextCallbackId) ∧
  (∀ i ∈ cbIds s.root, i < s.nextCallbackId) ∧
  (∀ e ∈ s.fired, e.2.1 ≤ e.2.2) ∧
  (∀ e ∈ s.fired, e.2.2 ≤ s.root.completedAt)

/-- A concrete root blocked at time 3, used to exercise the theorems. -/
def blockedRoot : FiberRoot Unit Unit :=
  { containerInfo := ()
    current := 0
    isScheduled := false
    completedAt := Done
    blockers := some (enqueue emptyUpdateQueue 3 ())
    completionCallbacks := none
    forceExpire := none
    nextScheduledRoot := none
    context := none
    pendingContext := none }

/-- A concrete unblocked root, used to exercise the theorems. -/
def freshSampleRoot : FiberRoot Unit Unit :=
  (initSchedState () 0).root

/-- A concrete queue-operation sequence, used to exercise the theorems. -/
def sampleQueueOps : List (QueueOp Unit) :=
  [QueueOp.enq 5 (), QueueOp.enq 3 (), QueueOp.drain 4]

/-- A concrete root-operation sequence (register a callback for time 3, then
commit at time 5), used to exercise the theorems. -/
def sampleRootOps : List RootOp :=
  [RootOp.register 3, RootOp.commitOp 7 5]

/-- A concrete work tree: a fallback boundary over two leaves whose
dependencies resolve at 100 and 200, used to exercise the theorems. -/
def sampleTree : WorkTree :=
  WorkTree.boundary "Loading..."
    (WorkTree.seq (WorkTree.leaf "A" 100) (WorkTree.leaf "B" 200))

/-! ## Theorems -/

/-- Helper: the defining case analysis of `isRootBlocked`. -/
theorem isRootBlocked_eq_true {C X : Type} (root : FiberRoot C X)
    (t : ExpirationTime) :
    isRootBlocked root t = true ↔
      ∃ q, root.blockers = some q ∧
        getUpdateQueueExpirationTime q ≠ Done ∧
        getUpdateQueueExpirationTime q ≤ t := by
  cases h : root.blockers with
  | none => simp [isRootBlocked, h]
  | some q => simp [isRootBlocked, h]

/-- C1: `isRootBlocked(root, t)` returns true iff `root.blockers` is non-null,
the minimum pending expiration time of that queue (as returned by
`getUpdateQueueExpirationTime`) is not `Done`, and that minimum is at or
before `t`. -/
theorem claim1_isRootBlocked_iff {C X : Type} (root : FiberRoot C X)
    (t : ExpirationTime) :
    isRootBlocked root t = true ↔
      ∃ q, root.blockers = some q ∧
        getUpdateQueueExpirationTime q ≠ Done ∧
        getUpdateQueueExpirationTime q ≤ t :=
  isRootBlocked_eq_true root t

/-- C1 witness: a root blocked at 3 is blocked at priority 5. -/
theorem claim1_witness : isRootBlocked blockedRoot 5 = true :=
  (claim1_isRootBlocked_iff blockedRoot 5).mpr
    ⟨enqueue emptyUpdateQueue 3 (), by decide, by decide, by decide⟩

/-- C2: `createFiberRoot(containerInfo)` returns a root with
`completedAt = Done`, empty queues, `isScheduled = false`, and all of
`forceExpire`, `nextScheduledRoot`, `context`, `pendingContext` null, storing
the given `containerInfo` unchanged (and pointing `current` at the freshly
allocated fiber). -/
theorem claim2_createFiberRoot_init {C X : Type} (h : Heap C X) (ci : C) :
    ((createFiberRoot h ci).1.roots)[(createFiberRoot h ci).2]? =
      some { containerInfo := ci
             current := h.fibers.length
             isScheduled := false
             completedAt := Done
             blockers := none
             completionCallbacks := none
             forceExpire := none
             nextScheduledRoot := none
             context := none
             pendingContext := none } := by
  simp [createFiberRoot, List.getElem?_concat_length]

/-- C5: the construction is cyclic: the returned root's `current` is the
freshly created host root fiber (allocated at the end of the heap), and that
fiber's `stateNode` back-references the returned root itself. -/
theorem claim5_createFiberRoot_cyclic {C X : Type} (h : Heap C X) (ci : C) :
    ∃ root fib,
      ((createFiberRoot h ci).1.roots)[(createFiberRoot h ci).2]? = some root ∧
      root.current = h.fibers.length ∧
      ((createFiberRoot h ci).1.fibers)[root.current]? = some fib ∧
      fib.stateNode = some (createFiberRoot h ci).2 := by
  refine ⟨{ containerInfo := ci
            current := h.fibers.length
            isScheduled := false
            completedAt := Done
            blockers := none
            completionCallbacks := none
            forceExpire := none
            nextScheduledRoot := none
            context := none
            pendingContext := none },
          { stateNode := some h.roots.length }, ?_, rfl, ?_, rfl⟩ <;>
    simp [createFiberRoot, createHostRootFiber, List.getElem?_concat_length]

/-- C6: `isRootBlocked` is monotone in the time argument, and a root with
`blockers = null` (in particular a freshly created root) is blocked at no
time. -/
theorem claim6_isRootBlocked_monotone {C X : Type} :
    (∀ (root : FiberRoot C X) (t1 t2 : ExpirationTime), t1 ≤ t2 →
        isRootBlocked root t1 = true → isRootBlocked root t2 = true) ∧
    (∀ (root : FiberRoot C X), root.blockers = none →
        ∀ t, isRootBlocked root t = false) := by
  constructor
  · intro root t1 t2 hle hb
    rcases (isRootBlocked_eq_true root t1).mp hb with ⟨q, hq, hne, hle1⟩
    exact (isRootBlocked_eq_true root t2).mpr ⟨q, hq, hne, le_trans hle1 hle⟩
  · intro root h t
    simp [isRootBlocked, h]

/-- C6 witness: blocked at 3 stays blocked at 5, and the fresh sample root is
never blocked. -/
theorem claim6_witness :
    isRootBlocked blockedRoot 5 = true ∧
    isRootBlocked freshSampleRoot 9 = false :=
  ⟨(claim6_isRootBlocked_monotone (C := Unit) (X := Unit)).1 blockedRoot 3 5
      (by decide) (by decide),
   (claim6_isRootBlocked_monotone (C := Unit) (X := Unit)).2 freshSampleRoot
      (by decide) 9⟩

/-- C7: `isRootBlocked` is pure: the state-passing embedding returns the root
unchanged and computes the same boolean as the direct function, so the same
root state and time always give the same result and no field is mutated. -/
theorem claim7_isRootBlocked_pure {C X : Type} (root : FiberRoot C X)
    (t : ExpirationTime) :
    (isRootBlockedSt root t).2 = root ∧
    (isRootBlockedSt root t).1 = isRootBlocked root t := by
  cases h : root.blockers with
  | none => simp [isRootBlockedSt, isRootBlocked, h]
  | some q =>
    have hroot : ({ root with blockers := some q } : FiberRoot C X) = root := by
      rw [← h]
    constructor
    · simp [isRootBlockedSt, h, getUpdateQueueExpirationTimeSt, hroot]
    · simp [isRootBlockedSt, isRootBlocked, h, getUpdateQueueExpirationTimeSt,
        getUpdateQueueExpirationTime]

/-- C3: if `isRootBlocked(root, time)` holds then `commit(root, time)` fails
with `BlockedCommit` and leaves the root (in particular `current`) unchanged;
likewise no commit at `time` or earlier changes `current` while the root is
blocked at that priority. -/
theorem claim3_commit_blocked {C X : Type} (root : FiberRoot C X)
    (newTree : Nat) (time : ExpirationTime)
    (hb : isRootBlocked root time = true) :
    (commit root newTree time).2.2 = some CommitError.BlockedCommit ∧
    (commit root newTree time).1 = root ∧
    ∀ t2, t2 ≤ time → isRootBlocked root t2 = true →
      (commit root newTree t2).1.current = root.current := by
  refine ⟨by simp [commit, hb], by simp [commit, hb], ?_⟩
  intro t2 _ hb2
  simp [commit, hb2]

/-- C3 witness: the concrete blocked root is blocked at 5 and a commit at 5
fails with `BlockedCommit` without touching `current`. -/
theorem claim3_witness :
    isRootBlocked blockedRoot 5 = true ∧
    (commit blockedRoot 7 5).2.2 = some CommitError.BlockedCommit ∧
    (commit blockedRoot 7 5).1.current = blockedRoot.current :=
  ⟨by decide,
   (claim3_commit_blocked blockedRoot 7 5 (by decide)).1,
   (claim3_commit_blocked blockedRoot 7 5 (by decide)).2.2 5 (le_refl 5)
     (by decide)⟩

/-- Helper: a single commit attempt never decreases `completedAt`. -/
theorem commit_completedAt_le {C X : Type} (root : FiberRoot C X)
    (nt : Nat) (t : ExpirationTime) :
    root.completedAt ≤ (commit root nt t).1.completedAt := by
  by_cases hb : isRootBlocked root t
  · simp [commit, hb]
  · cases hc : root.completionCallbacks <;>
      simp [commit, hb, hc, Nat.le_max_left]

/-- C4: over any sequence of commit attempts `completedAt` is non-decreasing,
and every successful commit sets `completedAt` to the maximum of its old
value and the commit time. -/
theorem claim4_completedAt_monotone {C X : Type} (root : FiberRoot C X)
    (ops : List (Nat × ExpirationTime)) :
    root.completedAt ≤ (commitMany root ops).completedAt ∧
    ∀ nt t, (commit root nt t).2.2 = none →
      (commit root nt t).1.completedAt = max root.completedAt t := by
  constructor
  · induction ops generalizing root with
    | nil => exact le_refl _
    | cons op rest ih =>
      obtain ⟨nt, t⟩ := op
      exact le_trans (commit_completedAt_le root nt t) (ih (commit root nt t).1)
  · intro nt t hsucc
    by_cases hb : isRootBlocked root t
    · simp [commit, hb] at hsucc
    · cases hc : root.completionCallbacks <;> simp [commit, hb, hc]

/-- C4 witness: a concrete run on the fresh sample root. -/
theorem claim4_witness :
    freshSampleRoot.completedAt ≤
      (commitMany freshSampleRoot [(1, 5)]).completedAt ∧
    (commit freshSampleRoot 1 5).1.completedAt =
      max freshSampleRoot.completedAt 5 :=
  ⟨(claim4_completedAt_monotone freshSampleRoot [(1, 5)]).1,
   (claim4_completedAt_monotone freshSampleRoot [(1, 5)]).2 1 5 (by decide)⟩

/-- Helper: sorted insertion is a permutation of consing the new entry. -/
theorem insertSorted_perm {T : Type} (t : ExpirationTime) (p : T)
    (l : List (ExpirationTime × T)) :
    (insertSorted t p l).Perm ((t, p) :: l) := by
  induction l with
  | nil => exact List.Perm.refl _
  | cons e rest ih =>
    by_cases hc : e.1 ≤ t
    · simp only [insertSorted, if_pos hc]
      exact (ih.cons e).trans (List.Perm.swap (t, p) e rest)
    · simp only [insertSorted, if_neg hc]
      exact List.Perm.refl _

/-- Helper: sorted insertion preserves sortedness. -/
theorem insertSorted_pairwise {T : Type} (t : ExpirationTime) (p : T)
    {l : List (ExpirationTime × T)}
    (hl : List.Pairwise (fun a b => a.1 ≤ b.1) l) :
    List.Pairwise (fun a b => a.1 ≤ b.1) (insertSorted t p l) := by
  induction l with
  | nil => simp [insertSorted]
  | cons e rest ih =>
    rcases List.pairwise_cons.mp hl with ⟨he, hrest⟩
    by_cases hc : e.1 ≤ t
    · simp only [insertSorted, if_pos hc]
      refine List.pairwise_cons.mpr ⟨?_, ih hrest⟩
      intro x hx
      rcases List.mem_cons.mp ((insertSorted_perm t p rest).mem_iff.mp hx) with
        h | h
      · cases h; exact hc
      · exact he x h
    · simp only [insertSorted, if_neg hc]
      refine List.pairwise_cons.mpr ⟨?_, hl⟩
      intro x hx
      rcases List.mem_cons.mp hx with h | h
      · cases h; exact le_of_not_le hc
      · exact le_trans (le_of_not_le hc) (he x h)

/-- Helper: in a sorted entry list the head time bounds every entry time. -/
theorem headTime_le {T : Type} {l : List (ExpirationTime × T)}
    (hs : List.Pairwise (fun a b => a.1 ≤ b.1) l) :
    ∀ e ∈ l, headTime l ≤ e.1 := by
  cases l with
  | nil => intro e he; cases he
  | cons a rest =>
    intro e he
    rcases List.mem_cons.mp he with h | h
    · cases h; exact le_refl _
    · exact (List.pairwise_cons.mp hs).1 e h

/-- Helper: the head time of a non-empty entry list is attained. -/
theorem headTime_mem {T : Type} {l : List (ExpirationTime × T)} (hne : l ≠ []) :
    ∃ e ∈ l, headTime l = e.1 := by
  cases l with
  | nil => exact absurd rfl hne
  | cons a rest => exact ⟨a, List.mem_cons_self a rest, rfl⟩

/-- Helper: the empty queue is well formed. -/
theorem emptyUpdateQueue_WF {T : Type} : queueWF (emptyUpdateQueue (T := T)) :=
  ⟨List.Pairwise.nil, by simp [emptyUpdateQueue], rfl⟩

/-- Helper: `enqueue` with a valid time preserves well-formedness. -/
theorem enqueue_WF {T : Type} {q : UpdateQueue T} (hw : queueWF q)
    {t : ExpirationTime} (ht : t ≠ Done) (p : T) : queueWF (enqueue q t p) := by
  obtain ⟨hs, hv, hc⟩ := hw
  refine ⟨insertSorted_pairwise t p hs, ?_, ?_⟩
  · intro e he
    rcases List.mem_cons.mp ((insertSorted_perm t p q.entries).mem_iff.mp he) with
      h | h
    · cases h; exact ht
    · exact hv e h
  · cases hl : q.entries with
    | nil =>
      have hdone : q.cachedMin = Done := by rw [hc, hl]; rfl
      simp [enqueue, hdone, hl, insertSorted, headTime]
    | cons e rest =>
      have hcm : q.cachedMin = e.1 := by rw [hc, hl]; rfl
      have hene : e.1 ≠ Done := hv e (by rw [hl]; exact List.mem_cons_self e rest)
      by_cases hct : e.1 ≤ t
      · simp [enqueue, hcm, hene, hl, insertSorted, hct, headTime,
          Nat.min_eq_left hct]
      · simp [enqueue, hcm, hene, hl, insertSorted, hct, headTime,
          Nat.min_eq_right (le_of_not_le hct)]

/-- Helper: draining preserves well-formedness. -/
theorem drain_WF {T : Type} {q : UpdateQueue T} (hw : queueWF q)
    (t : ExpirationTime) : queueWF (drainUpTo q t).2 := by
  obtain ⟨hs, hv, _⟩ := hw
  refine ⟨hs.sublist (List.dropWhile_sublist _), ?_, rfl⟩
  intro e he
  exact hv e ((List.dropWhile_sublist _).subset he)

/-- Helper: any valid operation sequence preserves well-formedness. -/
theorem applyQueueOps_WF {T : Type} (ops : List (QueueOp T))
    (hv : ∀ op ∈ ops, validQueueOp op = true) :
    ∀ {q : UpdateQueue T}, queueWF q → queueWF (applyQueueOps q ops) := by
  induction ops with
  | nil => intro q hw; exact hw
  | cons op rest ih =>
    intro q hw
    have hop := hv op (List.mem_cons_self op rest)
    have hrest : ∀ o ∈ rest, validQueueOp o = true :=
      fun o ho => hv o (List.mem_cons_of_mem op ho)
    cases op with
    | enq t p =>
      have ht : t ≠ Done := by simpa [validQueueOp] using hop
      exact ih hrest (enqueue_WF hw ht p)
    | drain t => exact ih hrest (drain_WF hw t)

/-- C8: over any valid sequence of enqueue/drain operations,
`getUpdateQueueExpirationTime` returns the minimum expiration time among the
currently-present entries (it bounds every entry and is attained by one), and
returns `Done` when the queue is empty or absent. -/
theorem claim8_queue_min {T : Type} (ops : List (QueueOp T))
    (hv : ∀ op ∈ ops, validQueueOp op = true) :
    getUpdateQueueExpirationTimeOpt (none : Option (UpdateQueue T)) = Done ∧
    ((applyQueueOps emptyUpdateQueue ops).entries = [] →
      getUpdateQueueExpirationTime (applyQueueOps emptyUpdateQueue ops) = Done) ∧
    (∀ e ∈ (applyQueueOps emptyUpdateQueue ops).entries,
      getUpdateQueueExpirationTime (applyQueueOps emptyUpdateQueue ops) ≤ e.1) ∧
    ((applyQueueOps emptyUpdateQueue ops).entries ≠ [] →
      ∃ e ∈ (applyQueueOps emptyUpdateQueue ops).entries,
        getUpdateQueueExpirationTime (applyQueueOps emptyUpdateQueue ops) = e.1) := by
  obtain ⟨hs, _, hc⟩ := applyQueueOps_WF ops hv emptyUpdateQueue_WF
  refine ⟨rfl, ?_, ?_, ?_⟩
  · intro he
    rw [getUpdateQueueExpirationTime, hc, he]
    rfl
  · intro e he
    rw [getUpdateQueueExpirationTime, hc]
    exact headTime_le hs e he
  · intro hne
    rw [getUpdateQueueExpirationTime, hc]
    exact headTime_mem hne

/-- C8 witness: enqueue at 5, enqueue at 3, drain up to 4; the minimum of the
remaining entries is attained. -/
theorem claim8_witness :
    (∀ op ∈ sampleQueueOps, validQueueOp op = true) ∧
    ∃ e ∈ (applyQueueOps emptyUpdateQueue sampleQueueOps).entries,
      getUpdateQueueExpirationTime (applyQueueOps emptyUpdateQueue sampleQueueOps) =
        e.1 :=
  ⟨by decide, (claim8_queue_min sampleQueueOps (by decide)).2.2.2 (by decide)⟩

/-- Helper: registering permutes the queued callback ids by consing the fresh
id. -/
theorem cbIds_register {C X : Type} (root : FiberRoot C X)
    (t : ExpirationTime) (i : Nat) :
    (cbIds (registerCompletionCallback root t i)).Perm (i :: cbIds root) := by
  cases hc : root.completionCallbacks with
  | none =>
    simp [registerCompletionCallback, cbIds, hc, emptyUpdateQueue, enqueue,
      insertSorted]
  | some q =>
    simp only [registerCompletionCallback, cbIds, hc, enqueue]
    exact (insertSorted_perm t i q.entries).map (·.2)

/-- Helper: projecting the id out of the logged triples recovers the payload
projection of the drained entries. -/
theorem map_fst_logged (ca : ExpirationTime) (l : List (ExpirationTime × Nat)) :
    (l.map (fun e => (e.2, e.1, ca))).map (·.1) = l.map (·.2) := by
  induction l with
  | nil => rfl
  | cons e rest ih => simp [ih]

/-- Helper: `clearBlock` does not touch the callback queue. -/
theorem cbIds_clearBlock {C X : Type} (root : FiberRoot C X)
    (t : ExpirationTime) : cbIds (clearBlock root t) = cbIds root := by
  cases hbl : root.blockers <;> simp [clearBlock, cbIds, hbl]

/-- Helper: `clearBlock` does not touch `completedAt`. -/
theorem clearBlock_completedAt {C X : Type} (root : FiberRoot C X)
    (t : ExpirationTime) : (clearBlock root t).completedAt = root.completedAt := by
  cases hbl : root.blockers <;> simp [clearBlock, hbl]

/-- Helper: the scheduling invariant is preserved by every root operation. -/
theorem schedInv_preserved {C X : Type} {s : SchedState C X} (hi : schedInv s) :
    ∀ op : RootOp, schedInv (applyRootOp s op) := by
  obtain ⟨root, n, fired⟩ := s
  obtain ⟨hf, hq, hdisj, hfb, hqb, hft, hfc⟩ := hi
  intro op
  cases op with
  | register t =>
    have hperm := cbIds_register root t n
    refine ⟨hf, ?_, ?_, ?_, ?_, hft, hfc⟩
    · refine hperm.nodup_iff.mpr (List.nodup_cons.mpr ⟨?_, hq⟩)
      intro hmem
      exact absurd (hqb _ hmem) (lt_irrefl _)
    · intro i hi2 hmem
      rcases List.mem_cons.mp (hperm.mem_iff.mp hmem) with h | h
      · subst h
        exact absurd (hfb _ hi2) (lt_irrefl _)
      · exact hdisj i hi2 h
    · intro i hi2
      exact Nat.lt_succ_of_lt (hfb i hi2)
    · intro i hi2
      rcases List.mem_cons.mp (hperm.mem_iff.mp hi2) with h | h
      · subst h; exact Nat.lt_succ_self _
      · exact Nat.lt_succ_of_lt (hqb i h)
  | markBlockedOp t =>
    exact ⟨hf, hq, hdisj, hfb, hqb, hft, hfc⟩
  | clearBlockOp t =>
    refine ⟨hf, ?_, ?_, hfb, ?_, hft, ?_⟩
    · show (cbIds (clearBlock root t)).Nodup
      rw [cbIds_clearBlock]; exact hq
    · show ∀ i ∈ fired.map (·.1), i ∉ cbIds (clearBlock root t)
      rw [cbIds_clearBlock]; exact hdisj
    · show ∀ i ∈ cbIds (clearBlock root t), i < n
      rw [cbIds_clearBlock]; exact hqb
    · show ∀ e ∈ fired, e.2.2 ≤ (clearBlock root t).completedAt
      rw [clearBlock_completedAt]; exact hfc
  | commitOp nt t =>
    by_cases hb : isRootBlocked root t
    · have happ :
          applyRootOp ⟨root, n, fired⟩ (RootOp.commitOp nt t) =
            ⟨root, n, fired⟩ := by
        simp [applyRootOp, commit, hb]
      rw [happ]
      exact ⟨hf, hq, hdisj, hfb, hqb, hft, hfc⟩
    · have hbf : isRootBlocked root t = false := Bool.eq_false_iff.mpr hb
      cases hcb : root.completionCallbacks with
      | none =>
        have happ :
            applyRootOp ⟨root, n, fired⟩ (RootOp.commitOp nt t) =
              ⟨{ root with
                   current := nt
                   completedAt := max root.completedAt t
                   context := match root.pendingContext with
                              | some c => some c
                              | none => root.context
                   pendingContext := none
                   completionCallbacks := none },
               n, fired⟩ := by
          simp [applyRootOp, commit, hbf, hcb]
        rw [happ]
        refine ⟨hf, List.nodup_nil, ?_, hfb, ?_, hft, ?_⟩
        · intro i _ hmem
          exact List.not_mem_nil i hmem
        · intro i hi2
          exact absurd hi2 (List.not_mem_nil i)
        · intro e he
          exact le_trans (hfc e he) (Nat.le_max_left _ _)
      | some q =>
        have htw := List.takeWhile_append_dropWhile
          (fun e => decide (e.1 ≤ t)) q.entries
        have hqsplit : cbIds root =
            (q.entries.takeWhile (fun e => decide (e.1 ≤ t))).map (·.2) ++
              (q.entries.dropWhile (fun e => decide (e.1 ≤ t))).map (·.2) := by
          rw [cbIds, hcb, ← List.map_append, htw]
        have hnd := (List.nodup_append.mp (hqsplit ▸ hq))
        obtain ⟨ntw, ndw, hdisj2⟩ := hnd
        have htwsub : ∀ i ∈ (q.entries.takeWhile (fun e => decide (e.1 ≤ t))).map (·.2),
            i ∈ cbIds root := by
          intro i hi2
          rw [hqsplit]
          exact List.mem_append_left _ hi2
        have hdwsub : ∀ i ∈ (q.entries.dropWhile (fun e => decide (e.1 ≤ t))).map (·.2),
            i ∈ cbIds root := by
          intro i hi2
          rw [hqsplit]
          exact List.mem_append_right _ hi2
        have happ :
            applyRootOp ⟨root, n, fired⟩ (RootOp.commitOp nt t) =
              ⟨{ root with
                   current := nt
                   completedAt := max root.completedAt t
                   context := match root.pendingContext with
                              | some c => some c
                              | none => root.context
                   pendingContext := none
                   completionCallbacks := some (drainUpTo q t).2 },
               n,
               fired ++ (drainUpTo q t).1.map
                 (fun e => (e.2, e.1, max root.completedAt t))⟩ := by
          simp [applyRootOp, commit, hbf, hcb]
        rw [happ]
        have hcb2 : cbIds
            ({ root with
                 current := nt
                 completedAt := max root.completedAt t
                 context := match root.pendingContext with
                            | some c => some c
                            | none => root.context
                 pendingContext := none
                 completionCallbacks := some (drainUpTo q t).2 } : FiberRoot C X) =
            (q.entries.dropWhile (fun e => decide (e.1 ≤ t))).map (·.2) := rfl
        have hfired : ((drainUpTo q t).1.map
              (fun e => (e.2, e.1, max root.completedAt t))).map (·.1) =
            (q.entries.takeWhile (fun e => decide (e.1 ≤ t))).map (·.2) :=
          map_fst_logged _ _
        refine ⟨?_, ?_, ?_, ?_, ?_, ?_, ?_⟩
        · rw [List.map_append, hfired]
          exact List.nodup_append.mpr
            ⟨hf, ntw, fun i hi2 => hdisj i hi2 ∘ htwsub i⟩
        · rw [hcb2]; exact ndw
        · intro i hi2
          rw [hcb2]
          rw [List.map_append, hfired] at hi2
          rcases List.mem_append.mp hi2 with h | h
          · exact fun hmem => hdisj i h (hdwsub i hmem)
          · exact hdisj2 h
        · intro i hi2
          rw [List.map_append, hfired] at hi2
          rcases List.mem_append.mp hi2 with h | h
          · exact hfb i h
          · exact hqb i (htwsub i h)
        · intro i hi2
          rw [hcb2] at hi2
          exact hqb i (hdwsub i hi2)
        · intro e he
          rcases List.mem_append.mp he with h | h
          · exact hft e h
          · rcases List.mem_map.mp h with ⟨x, hx, hxe⟩
            subst hxe
            have hx2 : x ∈ q.entries.takeWhile (fun e => decide (e.1 ≤ t)) := hx
            have hxt : x.1 ≤ t := by simpa using List.mem_takeWhile_imp hx2
            exact le_trans hxt (Nat.le_max_right _ _)
        · intro e he
          rcases List.mem_append.mp he with h | h
          · exact le_trans (hfc e h) (Nat.le_max_left _ _)
          · rcases List.mem_map.mp h with ⟨x, hx, hxe⟩
            subst hxe
            exact le_refl _

/-- Helper: the scheduling invariant is preserved by whole runs. -/
theorem runRootOps_inv {C X : Type} (ops : List RootOp) :
    ∀ {s : SchedState C X}, schedInv s → schedInv (runRootOps s ops) := by
  induction ops with
  | nil => intro s hs; exact hs
  | cons op rest ih => intro s hs; exact ih (schedInv_preserved hs op)

/-- Helper: a freshly mounted root satisfies the scheduling invariant. -/
theorem initSchedState_inv {C X : Type} (ci : C) (fid : Nat) :
    schedInv (initSchedState (C := C) (X := X) ci fid) := by
  refine ⟨?_, ?_, ?_, ?_, ?_, ?_, ?_⟩ <;> simp [initSchedState, cbIds]

/-- C9: over any sequence of register/commit/markBlocked/clearBlock
operations on a freshly mounted root, every registered completion callback is
invoked at most once (its invocation count in the log is 0 or 1), each
invocation happens at or after `completedAt` reaches the callback's
registered time, and an invoked callback is no longer present in
`completionCallbacks`. -/
theorem claim9_callback_once {C X : Type} (ci : C) (fid : Nat)
    (ops : List RootOp) :
    (∀ i : Nat,
      ((runRootOps (initSchedState (C := C) (X := X) ci fid) ops).fired.map
        (·.1)).count i ≤ 1) ∧
    (∀ e ∈ (runRootOps (initSchedState (C := C) (X := X) ci fid) ops).fired,
      e.2.1 ≤ e.2.2 ∧
      e.2.2 ≤
        (runRootOps (initSchedState (C := C) (X := X) ci fid) ops).root.completedAt) ∧
    (∀ e ∈ (runRootOps (initSchedState (C := C) (X := X) ci fid) ops).fired,
      e.1 ∉ cbIds (runRootOps (initSchedState (C := C) (X := X) ci fid) ops).root) := by
  obtain ⟨hf, hq, hdisj, hfb, hqb, hft, hfc⟩ :=
    runRootOps_inv ops (initSchedState_inv ci fid)
  refine ⟨fun i => List.nodup_iff_count_le_one.mp hf i, ?_, ?_⟩
  · intro e he
    exact ⟨hft e he, hfc e he⟩
  · intro e he
    exact hdisj e.1 (List.mem_map.mpr ⟨e, he, rfl⟩)

/-- C9 witness: register a callback for time 3 then commit at time 5; the
callback fires exactly once, at a point where `completedAt` is 5 ≥ 3. -/
theorem claim9_witness :
    ((runRootOps (initSchedState () 0 : SchedState Unit Unit)
        sampleRootOps).fired.map (·.1)).count 0 ≤ 1 ∧
    (0, 3, 5) ∈ (runRootOps (initSchedState () 0 : SchedState Unit Unit)
        sampleRootOps).fired ∧
    (3 : ExpirationTime) ≤ 5 := by
  refine ⟨(claim9_callback_once (C := Unit) (X := Unit) () 0 sampleRootOps).1 0,
    ?_, ?_⟩
  · decide
  · exact ((claim9_callback_once (C := Unit) (X := Unit) () 0
      sampleRootOps).2.1 (0, 3, 5) (by decide)).1

/-- The machine `m2` is reachable from `m` in finitely many units of work. -/
def Reaches (suspend : Bool) (now : ExpirationTime) (m m2 : Machine) : Prop :=
  ∃ n, stepIter suspend now n m = m2

/-- Helper: iterating steps composes additively. -/
theorem stepIter_add (suspend : Bool) (now : ExpirationTime) :
    ∀ (a b : Nat) (m : Machine),
      stepIter suspend now (a + b) m =
        stepIter suspend now b (stepIter suspend now a m) := by
  intro a
  induction a with
  | zero => intro b m; rw [Nat.zero_add]; rfl
  | succ a ih =>
    intro b m
    rw [Nat.succ_add]
    show stepIter suspend now (a + b) (step suspend now m) = _
    rw [ih]
    rfl

/-- Helper: reachability is transitive. -/
theorem reaches_trans {suspend : Bool} {now : ExpirationTime}
    {m1 m2 m3 : Machine} (h1 : Reaches suspend now m1 m2)
    (h2 : Reaches suspend now m2 m3) : Reaches suspend now m1 m3 := by
  obtain ⟨a, ha⟩ := h1
  obtain ⟨b, hb⟩ := h2
  exact ⟨a + b, by rw [stepIter_add, ha, hb]⟩

/-- Helper: one unit of work is a reachability step. -/
theorem reaches_step (suspend : Bool) (now : ExpirationTime) (m : Machine) :
    Reaches suspend now m (step suspend now m) :=
  ⟨1, rfl⟩

/-- Helper: a halted machine stays halted. -/
theorem stepIter_ret_nil (suspend : Bool) (now : ExpirationTime) :
    ∀ (n : Nat) (v : Option (List String)),
      stepIter suspend now n ⟨Control.ret v, []⟩ = ⟨Control.ret v, []⟩ := by
  intro n
  induction n with
  | zero => intro v; rfl
  | succ n ih =>
    intro v
    show stepIter suspend now n (step suspend now ⟨Control.ret v, []⟩) = _
    cases v <;> exact ih _

/-- Helper: the incremental machine computes exactly the recursive render
pass, whatever continuation it was started under. -/
theorem machine_run (suspend : Bool) (now : ExpirationTime) :
    ∀ (t : WorkTree) (k : List Frame),
      Reaches suspend now ⟨Control.ev t, k⟩
        ⟨Control.ret (renderResult suspend now t), k⟩ := by
  intro t
  induction t with
  | leaf text r => intro k; exact ⟨1, rfl⟩
  | seq l r ihl ihr =>
    intro k
    refine reaches_trans (reaches_step suspend now _) ?_
    show Reaches suspend now ⟨Control.ev l, Frame.seqL r :: k⟩ _
    refine reaches_trans (ihl (Frame.seqL r :: k)) ?_
    cases hv : renderResult suspend now l with
    | none =>
      refine reaches_trans (reaches_step suspend now _) ?_
      show Reaches suspend now ⟨Control.ret none, k⟩ _
      simp only [renderResult, hv]
      exact ⟨0, rfl⟩
    | some a =>
      refine reaches_trans (reaches_step suspend now _) ?_
      show Reaches suspend now ⟨Control.ev r, Frame.seqR a :: k⟩ _
      refine reaches_trans (ihr (Frame.seqR a :: k)) ?_
      cases hv2 : renderResult suspend now r with
      | none =>
        refine reaches_trans (reaches_step suspend now _) ?_
        show Reaches suspend now ⟨Control.ret none, k⟩ _
        simp only [renderResult, hv, hv2]
        exact ⟨0, rfl⟩
      | some b =>
        refine reaches_trans (reaches_step suspend now _) ?_
        show Reaches suspend now ⟨Control.ret (some (a ++ b)), k⟩ _
        simp only [renderResult, hv, hv2]
        exact ⟨0, rfl⟩
  | boundary fb c ihc =>
    intro k
    refine reaches_trans (reaches_step suspend now _) ?_
    show Reaches suspend now ⟨Control.ev c, Frame.bnd fb :: k⟩ _
    refine reaches_trans (ihc (Frame.bnd fb :: k)) ?_
    cases hv : renderResult suspend now c with
    | none =>
      refine reaches_trans (reaches_step suspend now _) ?_
      show Reaches suspend now ⟨Control.ret (some [fb]), k⟩ _
      simp only [renderResult, hv]
      exact ⟨0, rfl⟩
    | some out =>
      refine reaches_trans (reaches_step suspend now _) ?_
      show Reaches suspend now ⟨Control.ret (some out), k⟩ _
      simp only [renderResult, hv]
      exact ⟨0, rfl⟩

/-- Helper: running in slices is running the total number of units. -/
theorem runSlices_eq_sum (suspend : Bool) (now : ExpirationTime) :
    ∀ (slices : List Nat) (m : Machine),
      runSlices suspend now slices m = stepIter suspend now slices.sum m := by
  intro slices
  induction slices with
  | nil => intro m; rfl
  | cons a rest ih =>
    intro m
    show runSlices suspend now rest (stepIter suspend now a m) = _
    rw [ih, List.sum_cons, stepIter_add]

/-- Helper: with suspension disabled the pass does not depend on the time. -/
theorem renderResult_false_time (t : WorkTree) :
    ∀ now : ExpirationTime, renderResult false now t = renderResult false 0 t := by
  induction t with
  | leaf text r => intro now; simp [renderResult]
  | seq l r ihl ihr => intro now; simp [renderResult, ihl now, ihr now]
  | boundary fb c ihc => intro now; simp [renderResult, ihc now]

/-- Helper: once every dependency has resolved, the suspending pass computes
the same result as the non-suspending pass. -/
theorem renderResult_resolved {now : ExpirationTime} :
    ∀ t : WorkTree, maxResolve t ≤ now →
      renderResult true now t = renderResult false now t := by
  intro t
  induction t with
  | leaf text r =>
    intro h
    rw [maxResolve] at h
    simp [renderResult, Nat.not_lt.mpr h]
  | seq l r ihl ihr =>
    intro h
    rw [maxResolve] at h
    rw [renderResult, renderResult,
      ihl (le_trans (Nat.le_max_left _ _) h),
      ihr (le_trans (Nat.le_max_right _ _) h)]
  | boundary fb c ihc =>
    intro h
    rw [maxResolve] at h
    rw [renderResult, renderResult, ihc h]

/-- C10: once all asynchronous dependencies have resolved, rendering with
suspension enabled gives the same output as rendering with suspension
disabled, and the incremental machine reaches that same output under every
slicing of the pass into time slices (a single slice being the synchronous
mode) as soon as the total work budget suffices. -/
theorem claim10_suspension_equivalence (tree : WorkTree)
    (now : ExpirationTime) (h : maxResolve tree ≤ now) :
    renderResult true now tree = renderResult false 0 tree ∧
    ∃ n, ∀ slices : List Nat, n ≤ slices.sum →
      runSlices true now slices (initMachine tree) =
        ⟨Control.ret (renderResult false 0 tree), []⟩ := by
  have h1 : renderResult true now tree = renderResult false 0 tree := by
    rw [renderResult_resolved tree h, renderResult_false_time tree now]
  refine ⟨h1, ?_⟩
  obtain ⟨n, hn⟩ := machine_run true now tree []
  refine ⟨n, ?_⟩
  intro slices hs
  rw [runSlices_eq_sum]
  rw [show slices.sum = n + (slices.sum - n) from (Nat.add_sub_cancel' hs).symm]
  rw [stepIter_add]
  show stepIter true now (slices.sum - n) (stepIter true now n ⟨Control.ev tree, []⟩) = _
  rw [hn, h1, stepIter_ret_nil]

/-- C10 witness: the sample boundary-over-two-leaves tree has resolved by
time 200 and then renders identically with and without suspension. -/
theorem claim10_witness :
    maxResolve sampleTree ≤ 200 ∧
    renderResult true 200 sampleTree = renderResult false 0 sampleTree :=
  ⟨by decide, (claim10_suspension_equivalence sampleTree 200 (by decide)).1⟩

end ReactFiberRoot
